import Mathlib

/-!
Shallow embedding of the sequence-labeling core of the QE repository
(`src/qe/model.py`): the linear-chain CRF (gold-path scoring, log-domain
partition function, Viterbi decoding with backpointers, log-likelihood)
and the parts of `QualityEstimator` built on it (batch loss, prediction
with alignment projection and pad masking).

Real-valued tensors are embedded as total functions into `ℝ`; integer
tensors as total functions into `ℤ`; a Python exception (failed indexing
on an empty tensor, failed `assert`) is embedded as `Option.none`.
Labels for a CRF built with `num_tags = T + 1` are `Fin (T + 1)`, so the
label set is nonempty by construction (the repository always uses 2).
-/

namespace QE

noncomputable section

/-- Label type of a CRF with `T + 1` tags. -/
abbrev Lbl (T : ℕ) := Fin (T + 1)

/-- Maximum of a real-valued function on a nonempty finite type
(embeds `tensor.max()`). -/
def fmaxOn {α : Type*} [Fintype α] [Nonempty α] (f : α → ℝ) : ℝ :=
  Finset.univ.sup' Finset.univ_nonempty f

/-- Embeds `log_sum_exp(vector)` from `model.py` (no `dim` argument):
subtract the global maximum, exponentiate, sum, take the log, add the
maximum back. -/
def log_sum_exp {T : ℕ} (f : Lbl T → ℝ) : ℝ :=
  fmaxOn f + Real.log (∑ j, Real.exp (f j - fmaxOn f))

/-- Embeds `log_sum_exp(matrix, dim=1)` from `model.py`: the maximum is
taken over the whole matrix (`matrix.max()`), the sum in row `k` runs
over the second index. -/
def log_sum_exp_rows {T : ℕ} (m : Lbl T → Lbl T → ℝ) (k : Lbl T) : ℝ :=
  fmaxOn (fun p : Lbl T × Lbl T => m p.1 p.2)
    + Real.log (∑ j, Real.exp (m k j - fmaxOn (fun p : Lbl T × Lbl T => m p.1 p.2)))

/-- Parameters of the `CRF` module: the `input2tags` linear layer
(weight and bias) and the three transition parameter tensors.
`transitions k j` scores moving into label `k` from label `j`. -/
structure CRF (F T : ℕ) where
  input2tags_weight : Lbl T → Fin F → ℝ
  input2tags_bias : Lbl T → ℝ
  transitions_from_start : Lbl T → ℝ
  transitions : Lbl T → Lbl T → ℝ
  transitions_to_end : Lbl T → ℝ

variable {F T : ℕ}

/-- Emission scores `self._input2tags(seq)` at one position: the linear
layer applied to a feature vector. -/
def CRF.emit (c : CRF F T) (x : Fin F → ℝ) (k : Lbl T) : ℝ :=
  (∑ f, c.input2tags_weight k f * x f) + c.input2tags_bias k

/-- Accumulator of the loop in `CRF._log_score`: `score_acc seq tags i`
is the value of `score` after the loop iterations `1 .. i` (start
transition, emission at 0, then one pairwise transition and one emission
per iteration). -/
def CRF.score_acc (c : CRF F T) (seq : ℕ → Fin F → ℝ) (tags : ℕ → Lbl T) : ℕ → ℝ
  | 0 => c.transitions_from_start (tags 0) + c.emit (seq 0) (tags 0)
  | i + 1 => c.score_acc seq tags i + c.transitions (tags (i + 1)) (tags i)
      + c.emit (seq (i + 1)) (tags (i + 1))

/-- Embeds `CRF._log_score` for a sequence of length `L`: the loop
accumulator after position `L - 1` plus the end transition of the last
tag (`tags[-1]`). -/
def CRF.log_score (c : CRF F T) (L : ℕ) (seq : ℕ → Fin F → ℝ)
    (tags : ℕ → Lbl T) : ℝ :=
  c.score_acc seq tags (L - 1) + c.transitions_to_end (tags (L - 1))

/-- Forward variable of `CRF._partition`: `alpha seq i k` is
`tag_scores_total[k]` after processing positions `0 .. i`. -/
def CRF.alpha (c : CRF F T) (seq : ℕ → Fin F → ℝ) : ℕ → Lbl T → ℝ
  | 0, k => c.transitions_from_start k + c.emit (seq 0) k
  | i + 1, k =>
      log_sum_exp_rows (fun a b => c.transitions a b + c.alpha seq i b) k
        + c.emit (seq (i + 1)) k

/-- Embeds `CRF._partition` on a sequence of length `L`.  For `L = 0`
the Python code fails when indexing `emit_scores[0]` on an empty tensor;
this is embedded as `none`. -/
def CRF.partition (c : CRF F T) (L : ℕ) (seq : ℕ → Fin F → ℝ) : Option ℝ :=
  if L = 0 then none
  else some (log_sum_exp (fun k => c.transitions_to_end k + c.alpha seq (L - 1) k))

/-- Viterbi variable of `CRF.label`: `vit seq i k` is
`tag_scores_total[k]` after processing positions `0 .. i`, with
`torch.max(..., dim=1)` in place of `log_sum_exp`. -/
def CRF.vit (c : CRF F T) (seq : ℕ → Fin F → ℝ) : ℕ → Lbl T → ℝ
  | 0, k => c.transitions_from_start k + c.emit (seq 0) k
  | i + 1, k =>
      fmaxOn (fun j => c.transitions k j + c.vit seq i j) + c.emit (seq (i + 1)) k

open Classical in
/-- An index attaining `fmaxOn f` (embeds the index returned by
`torch.max`; ties are broken by taking the least such index, which is
one admissible choice since the reference leaves ties unspecified). -/
def argmaxOn {α : Type*} [Fintype α] [Nonempty α] [LinearOrder α] (f : α → ℝ) : α :=
  (Finset.univ.filter fun j => f j = fmaxOn f).min' (by
    obtain ⟨b, _, hb⟩ := Finset.exists_mem_eq_sup' (Finset.univ_nonempty (α := α)) f
    exact ⟨b, Finset.mem_filter.mpr ⟨Finset.mem_univ b, hb.symm⟩⟩)

/-- Backpointer table of `CRF.label`: row `0` keeps its initialization
`-1` (embedded as `none`); row `i + 1` holds the argmax over source
labels recorded by `torch.max(transition_scores, dim=1)`. -/
def CRF.parent (c : CRF F T) (seq : ℕ → Fin F → ℝ) : ℕ → Lbl T → Option (Lbl T)
  | 0, _ => none
  | i + 1, k => some (argmaxOn (fun j => c.transitions k j + c.vit seq i j))

/-- Backpointer-following loop of `CRF.label`, started at position `i`
with current tag `k`.  The path is produced already in left-to-right
order (the Python code appends right-to-left and reverses at the end).
Reaching a real predecessor at position `0` would drive `cur_idx`
negative, which the `assert cur_idx >= 0` turns into an error: `none`. -/
def backtrack {T : ℕ} (par : ℕ → Lbl T → Option (Lbl T)) :
    ℕ → Lbl T → Option (List (Lbl T))
  | 0, k =>
      match par 0 k with
      | none => some [k]
      | some _ => none
  | i + 1, k =>
      match par (i + 1) k with
      | none => some [k]
      | some t => (backtrack par i t).map (fun p => p ++ [k])

/-- Embeds `CRF.label` on a sequence of length `L` (the 2-dimensional
case; see `CRF.labelTensor` for the rank dispatch).  `L = 0` fails on
`emit_scores[0]`; a reconstructed path of length `≠ L` fails the
`assert len(path) == len(seq)`.  Both are embedded as `none`. -/
def CRF.label (c : CRF F T) (L : ℕ) (seq : ℕ → Fin F → ℝ) :
    Option (List (Lbl T) × ℝ) :=
  if L = 0 then none
  else
    match backtrack (c.parent seq) (L - 1)
        (argmaxOn (fun k => c.transitions_to_end k + c.vit seq (L - 1) k)) with
    | none => none
    | some path =>
        if path.length = L then
          some (path, fmaxOn (fun k => c.transitions_to_end k + c.vit seq (L - 1) k))
        else none

/-- Embeds `CRF.log_likelihood` on 2-dimensional inputs: gold-path score
minus the partition value, propagating the partition failure at
`L = 0`. -/
def CRF.log_likelihood (c : CRF F T) (L : ℕ) (seq : ℕ → Fin F → ℝ)
    (tags : ℕ → Lbl T) : Option ℝ :=
  (c.partition L seq).map (fun z => c.log_score L seq tags - z)

/-- Input tensor of `CRF.label` and `CRF.log_likelihood` together with
its rank: 2-dimensional `(L, F)`, or 3-dimensional (batched)
`(B, L, F)`. -/
inductive SeqTensor (F : ℕ) where
  | dim2 (L : ℕ) (s : ℕ → Fin F → ℝ)
  | dim3 (B L : ℕ) (s : ℕ → ℕ → Fin F → ℝ)

/-- Embeds `CRF.label` including its entry check
`if len(seq.shape) == 3: seq = seq[0]`. -/
def CRF.labelTensor (c : CRF F T) : SeqTensor F → Option (List (Lbl T) × ℝ)
  | .dim2 L s => c.label L s
  | .dim3 _ L s => c.label L (s 0)

/-- Embeds `CRF.log_likelihood` including its entry check
`if len(seq.shape) == 3: seq = seq[0]` on the sequence argument. -/
def CRF.log_likelihoodTensor (c : CRF F T) (st : SeqTensor F)
    (tags : ℕ → Lbl T) : Option ℝ :=
  match st with
  | .dim2 L s => c.log_likelihood L s tags
  | .dim3 _ L s => c.log_likelihood L (s 0) tags

/-- True length of batch column `i`: the count `(mt[:, i] != PAD_TOKEN).sum()`
of non-pad entries among the `maxMtLen` rows of the target tensor. -/
def mtColLen (PAD : ℤ) (maxMtLen : ℕ) (mt : ℤ → ℕ → ℤ) (i : ℕ) : ℕ :=
  ((Finset.range maxMtLen).filter fun p : ℕ => mt (p : ℤ) i ≠ PAD).card

/-- Model of `QualityEstimator`: the feature extractor (RNN/Transformer
encoders, attention, baseline and BERT features) is an external
collaborator, so only the CRF head built with `num_tags = 2` is kept;
the feature tensor it would produce is passed to `loss` and `predict`
explicitly. -/
structure QualityEstimator (F : ℕ) where
  crf : CRF F 1

/-- Embeds `QualityEstimator.loss`: iterate over the batch, subtract
each sample's log-likelihood on its emissions and tags truncated to the
sample's true length, then divide by the batch size.  An error raised
by `log_likelihood` (empty column) aborts the loop: `none`. -/
def QualityEstimator.loss {F : ℕ} (q : QualityEstimator F) (PAD : ℤ)
    (maxMtLen batchLen : ℕ) (features : ℤ → ℕ → Fin F → ℝ)
    (mt : ℤ → ℕ → ℤ) (word_tags : ℤ → ℕ → Lbl 1) : Option ℝ :=
  ((List.range batchLen).foldl
    (fun acc i =>
      acc.bind fun s =>
        (q.crf.log_likelihood (mtColLen PAD maxMtLen mt i)
            (fun p => features (p : ℤ) i)
            (fun p => word_tags (p : ℤ) i)).map
          (fun v => s - v))
    (some 0)).map (fun s => s / (batchLen : ℝ))

/-- Alignment-projection loop of `QualityEstimator.predict` on one batch
column: scan the pairs in order, stop at the first pair whose target
index is the sentinel `-1`, and for each earlier pair whose aligned
target label is BAD (`0`) set the source label at its source index to
BAD. -/
def alignScan (wcol : ℤ → ℤ) : List (ℤ × ℤ) → (ℤ → ℤ) → (ℤ → ℤ)
  | [], st => st
  | (js, jm) :: rest, st =>
      if jm = -1 then st
      else alignScan wcol rest
        (if wcol jm = 0 then Function.update st js 0 else st)

/-- One iteration of the batch loop of `QualityEstimator.predict` on
state `(src_tags, word_tags)` and batch column `i`: decode the column's
Viterbi labels into the word tags on the column's true length, then run
the alignment projection into the source tags of the same column. -/
def predictStep {F : ℕ} (q : QualityEstimator F) (PAD : ℤ) (maxMtLen : ℕ)
    (features : ℤ → ℕ → Fin F → ℝ) (mt : ℤ → ℕ → ℤ)
    (aligns : ℕ → List (ℤ × ℤ)) (st : (ℤ → ℕ → ℤ) × (ℤ → ℕ → ℤ)) (i : ℕ) :
    Option ((ℤ → ℕ → ℤ) × (ℤ → ℕ → ℤ)) :=
  (q.crf.label (mtColLen PAD maxMtLen mt i)
      (fun p => features (p : ℤ) i)).map fun res =>
    let word_tags : ℤ → ℕ → ℤ := fun p j =>
      if j = i ∧ 0 ≤ p ∧ p < (mtColLen PAD maxMtLen mt i : ℤ) then
        ((res.1.getD p.toNat 0 : Lbl 1) : ℤ)
      else st.2 p j
    let scol : ℤ → ℤ :=
      alignScan (fun p => word_tags p i) (aligns i) (fun p => st.1 p i)
    (fun p j => if j = i then scol p else st.1 p j, word_tags)

/-- Embeds `QualityEstimator.predict`: source and word tags start as all
ones, each batch column receives its Viterbi-decoded labels on its true
length, alignment pairs project BAD labels to the source side, and pad
positions of the word tags are finally re-marked with `-1`.  A failing
`CRF.label` call aborts the whole batch loop: `none`. -/
def QualityEstimator.predict {F : ℕ} (q : QualityEstimator F) (PAD : ℤ)
    (maxMtLen batchLen : ℕ) (features : ℤ → ℕ → Fin F → ℝ)
    (mt : ℤ → ℕ → ℤ) (aligns : ℕ → List (ℤ × ℤ)) :
    Option ((ℤ → ℕ → ℤ) × (ℤ → ℕ → ℤ)) :=
  ((List.range batchLen).foldl
    (fun acc i => acc.bind fun st => predictStep q PAD maxMtLen features mt aligns st i)
    (some (fun _ _ => 1, fun _ _ => 1))).map
    (fun st => (st.1, fun p j => if mt p j = PAD then -1 else st.2 p j))

/-- Extension of a finite label tuple on `Fin i` to all of `ℕ`, filling
every position from `i` on with a fixed label `k`.  Used to enumerate
the label paths of the brute-force partition and Viterbi sums. -/
def snocAt {T : ℕ} (i : ℕ) (tv : Fin i → Lbl T) (k : Lbl T) : ℕ → Lbl T :=
  fun j => if h : j < i then tv ⟨j, h⟩ else k

/-- Extension of a finite label tuple on `Fin L` to all of `ℕ` by the
label `0`; the scoring functions only read positions below `L`, so the
filler is irrelevant. -/
def extendT {T : ℕ} (L : ℕ) (tv : Fin L → Lbl T) : ℕ → Lbl T :=
  fun j => if h : j < L then tv ⟨j, h⟩ else ⟨0, Nat.succ_pos T⟩

/-- Concrete all-zero CRF used to instantiate the theorems. -/
def cW : CRF 1 1 :=
  ⟨fun _ _ => 0, fun _ => 0, fun _ => 0, fun _ _ => 0, fun _ => 0⟩

/-- Concrete feature sequence used to instantiate the theorems. -/
def seqW : ℕ → Fin 1 → ℝ := fun _ _ => 0

/-- Concrete gold tag sequence used to instantiate the theorems. -/
def tagsW : ℕ → Lbl 1 := fun _ => 0

/-- Concrete quality estimator used to instantiate the theorems. -/
def qW : QualityEstimator 1 := ⟨cW⟩

/-- Concrete batched feature tensor used to instantiate the theorems. -/
def featW : ℤ → ℕ → Fin 1 → ℝ := fun _ _ _ => 0

/-- Concrete target-token tensor (a single non-pad token per column,
with pad token `0`) used to instantiate the theorems. -/
def mtW : ℤ → ℕ → ℤ := fun _ _ => 1

/-- Concrete gold word-tag tensor used to instantiate the theorems. -/
def wtagW : ℤ → ℕ → Lbl 1 := fun _ _ => 0

/-- Concrete alignment input used to instantiate the theorems. -/
def alignsW : ℕ → List (ℤ × ℤ) := fun _ => []

/-- Concrete 3-dimensional (batched) feature tensor used to instantiate
the theorems. -/
def sW3 : ℕ → ℕ → Fin 1 → ℝ := fun _ _ _ => 0

/-! Basic facts about `fmaxOn`. -/

theorem le_fmaxOn {α : Type*} [Fintype α] [Nonempty α] (f : α → ℝ) (a : α) :
    f a ≤ fmaxOn f :=
  Finset.le_sup' f (Finset.mem_univ a)

theorem fmaxOn_le {α : Type*} [Fintype α] [Nonempty α] {f : α → ℝ} {b : ℝ}
    (h : ∀ a, f a ≤ b) : fmaxOn f ≤ b :=
  Finset.sup'_le _ f (fun a _ => h a)

theorem fmaxOn_exists {α : Type*} [Fintype α] [Nonempty α] (f : α → ℝ) :
    ∃ a, fmaxOn f = f a := by
  obtain ⟨b, _, hb⟩ := Finset.exists_mem_eq_sup' (Finset.univ_nonempty (α := α)) f
  exact ⟨b, hb⟩

theorem fmaxOn_congr {α : Type*} [Fintype α] [Nonempty α] {f g : α → ℝ}
    (h : ∀ a, f a = g a) : fmaxOn f = fmaxOn g := by
  have : f = g := funext h
  rw [this]

theorem fmaxOn_add_const {α : Type*} [Fintype α] [Nonempty α] (f : α → ℝ) (b : ℝ) :
    fmaxOn (fun a => f a + b) = fmaxOn f + b := by
  apply le_antisymm
  · exact fmaxOn_le (fun a => add_le_add_right (le_fmaxOn f a) b)
  · obtain ⟨a, ha⟩ := fmaxOn_exists f
    rw [ha]
    exact le_fmaxOn (fun a => f a + b) a

theorem fmaxOn_const_add {α : Type*} [Fintype α] [Nonempty α] (b : ℝ) (f : α → ℝ) :
    fmaxOn (fun a => b + f a) = b + fmaxOn f := by
  rw [fmaxOn_congr (g := fun a => f a + b) (fun a => add_comm b (f a)),
    fmaxOn_add_const, add_comm]

theorem fmaxOn_unique {α : Type*} [Fintype α] [Unique α] (f : α → ℝ) :
    fmaxOn f = f default := by
  apply le_antisymm
  · exact fmaxOn_le (fun a => by rw [Subsingleton.elim a default])
  · exact le_fmaxOn f default

theorem fmaxOn_comp_equiv {α β : Type*} [Fintype α] [Nonempty α]
    [Fintype β] [Nonempty β] (e : β ≃ α) (f : α → ℝ) :
    fmaxOn f = fmaxOn (fun b => f (e b)) := by
  apply le_antisymm
  · apply fmaxOn_le
    intro a
    have h := le_fmaxOn (fun b => f (e b)) (e.symm a)
    simpa using h
  · exact fmaxOn_le (fun b => le_fmaxOn f (e b))

theorem fmaxOn_prod {α β : Type*} [Fintype α] [Nonempty α]
    [Fintype β] [Nonempty β] (f : α × β → ℝ) :
    fmaxOn f = fmaxOn (fun a => fmaxOn (fun b => f (a, b))) := by
  apply le_antisymm
  · apply fmaxOn_le
    intro p
    calc f p = f (p.1, p.2) := rfl
      _ ≤ fmaxOn (fun b => f (p.1, b)) := le_fmaxOn (fun b => f (p.1, b)) p.2
      _ ≤ fmaxOn (fun a => fmaxOn (fun b => f (a, b))) :=
          le_fmaxOn (fun a => fmaxOn (fun b => f (a, b))) p.1
  · apply fmaxOn_le
    intro a
    exact fmaxOn_le (fun b => le_fmaxOn f (a, b))

/-! The stabilized log-sum-exp equals the plain log of the sum of
exponentials, over the reals. -/

theorem sum_exp_pos {α : Type*} [Fintype α] [Nonempty α] (f : α → ℝ) :
    (0 : ℝ) < ∑ a, Real.exp (f a) :=
  Finset.sum_pos (fun a _ => Real.exp_pos _) Finset.univ_nonempty

theorem log_sum_exp_eq {T : ℕ} (f : Lbl T → ℝ) :
    log_sum_exp f = Real.log (∑ j, Real.exp (f j)) := by
  unfold log_sum_exp
  simp only [Real.exp_sub]
  rw [← Finset.sum_div,
    Real.log_div (ne_of_gt (sum_exp_pos f)) (Real.exp_ne_zero _), Real.log_exp]
  ring

theorem log_sum_exp_rows_eq {T : ℕ} (m : Lbl T → Lbl T → ℝ) (k : Lbl T) :
    log_sum_exp_rows m k = Real.log (∑ j, Real.exp (m k j)) := by
  unfold log_sum_exp_rows
  simp only [Real.exp_sub]
  rw [← Finset.sum_div,
    Real.log_div (ne_of_gt (sum_exp_pos (fun j => m k j))) (Real.exp_ne_zero _),
    Real.log_exp]
  ring

/-! Properties of the gold-path score accumulator and of path
extensions. -/

theorem score_acc_congr (c : CRF F T) (seq : ℕ → Fin F → ℝ) {tags tags' : ℕ → Lbl T} :
    ∀ i, (∀ j ≤ i, tags j = tags' j) → c.score_acc seq tags i = c.score_acc seq tags' i := by
  intro i
  induction i with
  | zero =>
      intro h
      simp only [CRF.score_acc]
      rw [h 0 le_rfl]
  | succ i ih =>
      intro h
      simp only [CRF.score_acc]
      rw [ih (fun j hj => h j (hj.trans (Nat.le_succ i))), h (i + 1) le_rfl,
        h i (Nat.le_succ i)]

theorem snocAt_self {T : ℕ} (i : ℕ) (tv : Fin i → Lbl T) (k : Lbl T) :
    snocAt i tv k i = k := by
  simp [snocAt]

theorem snocAt_lt {T : ℕ} {i j : ℕ} (h : j < i) (tv : Fin i → Lbl T) (k : Lbl T) :
    snocAt i tv k j = tv ⟨j, h⟩ := by
  simp [snocAt, h]

theorem snocAt_snoc {T : ℕ} (i : ℕ) (tv : Fin i → Lbl T) (m k : Lbl T) :
    ∀ j ≤ i, snocAt (i + 1) (Fin.snoc tv m) k j = snocAt i tv m j := by
  intro j hj
  rcases lt_or_eq_of_le hj with h | h
  · rw [snocAt_lt (Nat.lt_succ_of_lt h), snocAt_lt h]
    exact Fin.snoc_castSucc (α := fun _ => Lbl T) (n := i) m tv ⟨j, h⟩
  · subst h
    rw [snocAt_lt (Nat.lt_succ_self j), snocAt_self]
    exact Fin.snoc_last (α := fun _ => Lbl T) (n := j) m tv

theorem score_acc_snoc (c : CRF F T) (seq : ℕ → Fin F → ℝ) (i : ℕ)
    (tv : Fin i → Lbl T) (m k : Lbl T) :
    c.score_acc seq (snocAt (i + 1) (Fin.snoc tv m) k) (i + 1)
      = c.score_acc seq (snocAt i tv m) i + c.transitions k m + c.emit (seq (i + 1)) k := by
  simp only [CRF.score_acc]
  rw [score_acc_congr c seq i (snocAt_snoc i tv m k), snocAt_self,
    snocAt_snoc i tv m k i le_rfl, snocAt_self]

/-! Exponentiated forward recurrence: `exp (alpha i k)` is the sum over
all label paths for positions `0 .. i` ending in label `k` of the
exponentiated partial gold-path score. -/

theorem exp_alpha (c : CRF F T) (seq : ℕ → Fin F → ℝ) :
    ∀ (i : ℕ) (k : Lbl T),
      Real.exp (c.alpha seq i k)
        = ∑ tv : Fin i → Lbl T, Real.exp (c.score_acc seq (snocAt i tv k) i) := by
  intro i
  induction i with
  | zero =>
      intro k
      rw [Fintype.sum_unique]
      simp only [CRF.alpha, CRF.score_acc]
      rw [snocAt_self]
  | succ i ih =>
      intro k
      have hterm : ∀ j : Lbl T,
          Real.exp (c.transitions k j + c.alpha seq i j) * Real.exp (c.emit (seq (i + 1)) k)
            = ∑ tv : Fin i → Lbl T,
                Real.exp (c.score_acc seq (snocAt i tv j) i + c.transitions k j
                  + c.emit (seq (i + 1)) k) := by
        intro j
        rw [Real.exp_add, ih j, Finset.mul_sum, Finset.sum_mul]
        refine Finset.sum_congr rfl (fun tv _ => ?_)
        rw [Real.exp_add, Real.exp_add]
        ring
      have hpos : (0 : ℝ) < ∑ j, Real.exp (c.transitions k j + c.alpha seq i j) :=
        sum_exp_pos _
      calc Real.exp (c.alpha seq (i + 1) k)
          = Real.exp (log_sum_exp_rows
                (fun a b => c.transitions a b + c.alpha seq i b) k)
              * Real.exp (c.emit (seq (i + 1)) k) := by
            simp only [CRF.alpha]
            rw [Real.exp_add]
        _ = (∑ j, Real.exp (c.transitions k j + c.alpha seq i j))
              * Real.exp (c.emit (seq (i + 1)) k) := by
            rw [log_sum_exp_rows_eq, Real.exp_log hpos]
        _ = ∑ j : Lbl T, ∑ tv : Fin i → Lbl T,
              Real.exp (c.score_acc seq (snocAt i tv j) i + c.transitions k j
                + c.emit (seq (i + 1)) k) := by
            rw [Finset.sum_mul]
            exact Finset.sum_congr rfl (fun j _ => hterm j)
        _ = ∑ tv : Fin (i + 1) → Lbl T,
              Real.exp (c.score_acc seq (snocAt (i + 1) tv k) (i + 1)) := by
            rw [← Equiv.sum_comp (Fin.snocEquiv (fun _ => Lbl T))
                  (fun tv => Real.exp (c.score_acc seq (snocAt (i + 1) tv k) (i + 1))),
                Fintype.sum_prod_type]
            refine Finset.sum_congr rfl (fun m _ => Finset.sum_congr rfl (fun tv _ => ?_))
            have he : (Fin.snocEquiv (fun _ => Lbl T)) (m, tv) = Fin.snoc tv m := rfl
            rw [he, score_acc_snoc]

/-! Partition function versus brute-force enumeration. -/

theorem log_score_succ (c : CRF F T) (seq : ℕ → Fin F → ℝ) (n : ℕ) (tags : ℕ → Lbl T) :
    c.log_score (n + 1) seq tags
      = c.score_acc seq tags n + c.transitions_to_end (tags n) := by
  simp [CRF.log_score]

theorem extendT_snoc {T : ℕ} (n : ℕ) (tv : Fin n → Lbl T) (m : Lbl T) :
    ∀ j ≤ n, extendT (n + 1) (Fin.snoc tv m) j = snocAt n tv m j := by
  intro j hj
  have hj1 : j < n + 1 := Nat.lt_succ_of_le hj
  rcases lt_or_eq_of_le hj with h | h
  · simp only [extendT, dif_pos hj1]
    rw [snocAt_lt h]
    exact Fin.snoc_castSucc (α := fun _ => Lbl T) (n := n) m tv ⟨j, h⟩
  · subst h
    simp only [extendT, dif_pos hj1]
    rw [snocAt_self]
    exact Fin.snoc_last (α := fun _ => Lbl T) (n := j) m tv

theorem log_score_congr (c : CRF F T) (seq : ℕ → Fin F → ℝ) (L : ℕ)
    {tags tags' : ℕ → Lbl T} (h : ∀ j ≤ L - 1, tags j = tags' j) :
    c.log_score L seq tags = c.log_score L seq tags' := by
  unfold CRF.log_score
  rw [score_acc_congr c seq (L - 1) h, h (L - 1) le_rfl]

theorem sum_exp_score_succ (c : CRF F T) (seq : ℕ → Fin F → ℝ) (n : ℕ) :
    ∑ tv : Fin (n + 1) → Lbl T, Real.exp (c.log_score (n + 1) seq (extendT (n + 1) tv))
      = ∑ k : Lbl T, ∑ tv : Fin n → Lbl T,
          Real.exp (c.score_acc seq (snocAt n tv k) n + c.transitions_to_end k) := by
  rw [← Equiv.sum_comp (Fin.snocEquiv (fun _ => Lbl T))
        (fun tv => Real.exp (c.log_score (n + 1) seq (extendT (n + 1) tv))),
      Fintype.sum_prod_type]
  refine Finset.sum_congr rfl (fun m _ => Finset.sum_congr rfl (fun tv _ => ?_))
  have he : (Fin.snocEquiv (fun _ => Lbl T)) (m, tv) = Fin.snoc tv m := rfl
  rw [he, log_score_congr c seq (n + 1) (fun j hj => extendT_snoc n tv m j hj),
    log_score_succ, snocAt_self]

theorem partition_eq_brute (c : CRF F T) (seq : ℕ → Fin F → ℝ) {L : ℕ} (hL : 0 < L) :
    c.partition L seq
      = some (Real.log
          (∑ tv : Fin L → Lbl T, Real.exp (c.log_score L seq (extendT L tv)))) := by
  obtain ⟨n, rfl⟩ : ∃ n, L = n + 1 := ⟨L - 1, (Nat.succ_pred_eq_of_pos hL).symm⟩
  unfold CRF.partition
  rw [if_neg (Nat.succ_ne_zero n)]
  congr 1
  rw [log_sum_exp_eq, sum_exp_score_succ]
  congr 1
  refine Finset.sum_congr rfl (fun k _ => ?_)
  have hn : n + 1 - 1 = n := rfl
  rw [hn, Real.exp_add, exp_alpha c seq n k, Finset.mul_sum]
  refine Finset.sum_congr rfl (fun tv _ => ?_)
  rw [Real.exp_add]
  ring

theorem gold_le_max (c : CRF F T) (seq : ℕ → Fin F → ℝ) {L : ℕ} (hL : 0 < L)
    (tags : ℕ → Lbl T) :
    c.log_score L seq tags
      ≤ fmaxOn (fun tv : Fin L → Lbl T => c.log_score L seq (extendT L tv)) := by
  have h : c.log_score L seq tags
      = c.log_score L seq (extendT L (fun j : Fin L => tags j)) := by
    refine log_score_congr c seq L (fun j hj => ?_)
    have hjL : j < L := lt_of_le_of_lt hj (Nat.sub_lt hL one_pos)
    simp [extendT, hjL]
  rw [h]
  exact le_fmaxOn (fun tv : Fin L → Lbl T => c.log_score L seq (extendT L tv)) _

/-! Viterbi recursion: `vit i k` is the maximal partial gold-path score
over label paths for positions `0 .. i` ending in label `k`, and the
decoded path has full length. -/

theorem fmaxOn_add_const2 {α : Type*} [Fintype α] [Nonempty α] (f : α → ℝ) (b d : ℝ) :
    fmaxOn (fun a => f a + b + d) = fmaxOn f + b + d := by
  rw [fmaxOn_congr (g := fun a => f a + (b + d)) (fun a => by ring),
    fmaxOn_add_const, add_assoc]

theorem vit_fmax (c : CRF F T) (seq : ℕ → Fin F → ℝ) :
    ∀ (i : ℕ) (k : Lbl T),
      c.vit seq i k
        = fmaxOn (fun tv : Fin i → Lbl T => c.score_acc seq (snocAt i tv k) i) := by
  intro i
  induction i with
  | zero =>
      intro k
      rw [fmaxOn_unique]
      simp only [CRF.vit, CRF.score_acc]
      rw [snocAt_self]
  | succ i ih =>
      intro k
      calc c.vit seq (i + 1) k
          = fmaxOn (fun j => c.transitions k j + c.vit seq i j)
              + c.emit (seq (i + 1)) k := by
            simp only [CRF.vit]
        _ = fmaxOn (fun j : Lbl T => fmaxOn (fun tv : Fin i → Lbl T =>
              c.score_acc seq (snocAt i tv j) i + c.transitions k j
                + c.emit (seq (i + 1)) k)) := by
            rw [← fmaxOn_add_const (fun j => c.transitions k j + c.vit seq i j)
                  (c.emit (seq (i + 1)) k)]
            refine fmaxOn_congr (fun j => ?_)
            rw [ih j, fmaxOn_add_const2 (fun tv : Fin i → Lbl T =>
              c.score_acc seq (snocAt i tv j) i) (c.transitions k j)
              (c.emit (seq (i + 1)) k)]
            ring
        _ = fmaxOn (fun p : Lbl T × (Fin i → Lbl T) =>
              c.score_acc seq (snocAt i p.2 p.1) i + c.transitions k p.1
                + c.emit (seq (i + 1)) k) :=
            (fmaxOn_prod (fun p : Lbl T × (Fin i → Lbl T) =>
              c.score_acc seq (snocAt i p.2 p.1) i + c.transitions k p.1
                + c.emit (seq (i + 1)) k)).symm
        _ = fmaxOn (fun tv : Fin (i + 1) → Lbl T =>
              c.score_acc seq (snocAt (i + 1) tv k) (i + 1)) := by
            rw [fmaxOn_comp_equiv (Fin.snocEquiv (fun _ => Lbl T))
                  (fun tv => c.score_acc seq (snocAt (i + 1) tv k) (i + 1))]
            refine fmaxOn_congr (fun p => ?_)
            have he : (Fin.snocEquiv (fun _ => Lbl T)) p = Fin.snoc p.2 p.1 := rfl
            rw [he, score_acc_snoc]

theorem backtrack_parent (c : CRF F T) (seq : ℕ → Fin F → ℝ) :
    ∀ (i : ℕ) (k : Lbl T),
      ∃ p, backtrack (c.parent seq) i k = some p ∧ p.length = i + 1 := by
  intro i
  induction i with
  | zero =>
      intro k
      exact ⟨[k], by simp [backtrack, CRF.parent], rfl⟩
  | succ i ih =>
      intro k
      obtain ⟨p, hp, hl⟩ := ih (argmaxOn (fun j => c.transitions k j + c.vit seq i j))
      refine ⟨p ++ [k], ?_, by simp [hl]⟩
      simp [backtrack, CRF.parent, hp]

theorem vit_final_max (c : CRF F T) (seq : ℕ → Fin F → ℝ) (n : ℕ) :
    fmaxOn (fun k => c.transitions_to_end k + c.vit seq n k)
      = fmaxOn (fun tv : Fin (n + 1) → Lbl T =>
          c.log_score (n + 1) seq (extendT (n + 1) tv)) := by
  calc fmaxOn (fun k => c.transitions_to_end k + c.vit seq n k)
      = fmaxOn (fun k : Lbl T => fmaxOn (fun tv : Fin n → Lbl T =>
          c.score_acc seq (snocAt n tv k) n + c.transitions_to_end k)) := by
        refine fmaxOn_congr (fun k => ?_)
        rw [vit_fmax c seq n k,
          ← fmaxOn_const_add (c.transitions_to_end k)
            (fun tv : Fin n → Lbl T => c.score_acc seq (snocAt n tv k) n)]
        exact fmaxOn_congr (fun tv => by ring)
    _ = fmaxOn (fun p : Lbl T × (Fin n → Lbl T) =>
          c.score_acc seq (snocAt n p.2 p.1) n + c.transitions_to_end p.1) :=
        (fmaxOn_prod (fun p : Lbl T × (Fin n → Lbl T) =>
          c.score_acc seq (snocAt n p.2 p.1) n + c.transitions_to_end p.1)).symm
    _ = fmaxOn (fun tv : Fin (n + 1) → Lbl T =>
          c.log_score (n + 1) seq (extendT (n + 1) tv)) := by
        rw [fmaxOn_comp_equiv (Fin.snocEquiv (fun _ => Lbl T))
              (fun tv => c.log_score (n + 1) seq (extendT (n + 1) tv))]
        refine fmaxOn_congr (fun p => ?_)
        have he : (Fin.snocEquiv (fun _ => Lbl T)) p = Fin.snoc p.2 p.1 := rfl
        rw [he, log_score_congr c seq (n + 1)
              (fun j hj => extendT_snoc n p.2 p.1 j hj),
            log_score_succ, snocAt_self]

theorem label_spec (c : CRF F T) (seq : ℕ → Fin F → ℝ) {L : ℕ} (hL : 0 < L) :
    ∃ path, c.label L seq
        = some (path,
            fmaxOn (fun tv : Fin L → Lbl T => c.log_score L seq (extendT L tv)))
      ∧ path.length = L := by
  obtain ⟨n, rfl⟩ : ∃ n, L = n + 1 := ⟨L - 1, (Nat.succ_pred_eq_of_pos hL).symm⟩
  obtain ⟨p, hp, hl⟩ := backtrack_parent c seq n
    (argmaxOn (fun k => c.transitions_to_end k + c.vit seq n k))
  have hlen : p.length = n + 1 := hl
  refine ⟨p, ?_, hlen⟩
  unfold CRF.label
  rw [if_neg (Nat.succ_ne_zero n)]
  have hn : n + 1 - 1 = n := rfl
  rw [hn, hp]
  show (if p.length = n + 1 then
      some (p, fmaxOn (fun k => c.transitions_to_end k + c.vit seq n k))
    else none) = _
  rw [if_pos hlen, vit_final_max]

/-! Batch loss accumulation. -/

theorem loss_foldl {F : ℕ} (q : QualityEstimator F) (PAD : ℤ) (maxMtLen : ℕ)
    (features : ℤ → ℕ → Fin F → ℝ) (mt : ℤ → ℕ → ℤ) (word_tags : ℤ → ℕ → Lbl 1)
    (v : ℕ → ℝ) :
    ∀ (n : ℕ) (s : ℝ),
      (∀ i < n, q.crf.log_likelihood (mtColLen PAD maxMtLen mt i)
          (fun p => features (p : ℤ) i) (fun p => word_tags (p : ℤ) i) = some (v i)) →
      (List.range n).foldl
        (fun acc i =>
          acc.bind fun s =>
            (q.crf.log_likelihood (mtColLen PAD maxMtLen mt i)
                (fun p => features (p : ℤ) i)
                (fun p => word_tags (p : ℤ) i)).map
              (fun w => s - w))
        (some s)
      = some (s + ∑ i ∈ Finset.range n, -(v i)) := by
  intro n
  induction n with
  | zero =>
      intro s _
      simp
  | succ n ih =>
      intro s h
      rw [List.range_succ, List.foldl_append,
        ih s (fun i hi => h i (Nat.lt_succ_of_lt hi))]
      simp only [List.foldl_cons, List.foldl_nil, h n (Nat.lt_succ_self n),
        Option.bind_eq_bind, Option.some_bind, Option.map_some']
      rw [Finset.sum_range_succ]
      congr 1
      ring

/-! Alignment projection: sentinel cut-off, monotonicity, and the
characterization of BAD source labels. -/

theorem alignScan_sentinel (w : ℤ → ℤ) :
    ∀ (l1 l2 : List (ℤ × ℤ)) (js : ℤ) (st : ℤ → ℤ),
      alignScan w (l1 ++ (js, -1) :: l2) st = alignScan w l1 st := by
  intro l1
  induction l1 with
  | nil =>
      intro l2 js st
      simp [alignScan]
  | cons hd tl ih =>
      intro l2 js st
      obtain ⟨a, b⟩ := hd
      by_cases hb : b = -1
      · simp [alignScan, hb]
      · simp only [List.cons_append, alignScan, if_neg hb]
        exact ih l2 js _

theorem alignScan_mono (w : ℤ → ℤ) :
    ∀ (l : List (ℤ × ℤ)) (st : ℤ → ℤ) (s : ℤ), st s = 0 → alignScan w l st s = 0 := by
  intro l
  induction l with
  | nil =>
      intro st s h
      simpa [alignScan] using h
  | cons hd tl ih =>
      intro st s h
      obtain ⟨a, b⟩ := hd
      by_cases hb : b = -1
      · simpa [alignScan, hb] using h
      · simp only [alignScan, if_neg hb]
        apply ih
        by_cases hw : w b = 0
        · rw [if_pos hw, Function.update_apply]
          by_cases hs : s = a
          · rw [if_pos hs]
          · rw [if_neg hs]
            exact h
        · rw [if_neg hw]
          exact h

theorem alignScan_zero_iff (w : ℤ → ℤ) :
    ∀ (l : List (ℤ × ℤ)) (st : ℤ → ℤ) (s : ℤ),
      (alignScan w l st s = 0
        ↔ st s = 0 ∨ ∃ pr ∈ l.takeWhile (fun e => e.2 ≠ -1), pr.1 = s ∧ w pr.2 = 0) := by
  intro l
  induction l with
  | nil =>
      intro st s
      simp [alignScan]
  | cons hd tl ih =>
      intro st s
      obtain ⟨a, b⟩ := hd
      by_cases hb : b = -1
      · simp [alignScan, hb, List.takeWhile_cons]
      · have hstep : alignScan w ((a, b) :: tl) st
            = alignScan w tl (if w b = 0 then Function.update st a 0 else st) := by
          simp [alignScan, hb]
        rw [hstep, ih]
        have htw : ((a, b) :: tl).takeWhile (fun e => e.2 ≠ -1)
            = (a, b) :: tl.takeWhile (fun e => e.2 ≠ -1) := by
          simp [List.takeWhile_cons, hb]
        rw [htw]
        by_cases hw : w b = 0 <;> by_cases hs : s = a <;>
          simp [hw, hs, Function.update_apply, List.mem_cons] <;> tauto

/-! Invariant of the batch loop of `predict`: after processing the first
`n` columns, every processed column carries its decoded labels on its
true length. -/

theorem predict_foldl {F : ℕ} (q : QualityEstimator F) (PAD : ℤ) (maxMtLen : ℕ)
    (features : ℤ → ℕ → Fin F → ℝ) (mt : ℤ → ℕ → ℤ) (aligns : ℕ → List (ℤ × ℤ)) :
    ∀ n : ℕ,
      (∀ j < n, (q.crf.label (mtColLen PAD maxMtLen mt j)
          (fun p => features (p : ℤ) j)).isSome) →
      ∃ st : (ℤ → ℕ → ℤ) × (ℤ → ℕ → ℤ),
        (List.range n).foldl
            (fun acc i => acc.bind fun st =>
              predictStep q PAD maxMtLen features mt aligns st i)
            (some (fun _ _ => 1, fun _ _ => 1)) = some st
          ∧ ∀ j ps sc,
              q.crf.label (mtColLen PAD maxMtLen mt j)
                  (fun p => features (p : ℤ) j) = some (ps, sc) →
              j < n → ∀ p : ℕ, p < mtColLen PAD maxMtLen mt j →
                st.2 (p : ℤ) j = ((ps.getD p 0 : Lbl 1) : ℤ) := by
  intro n
  induction n with
  | zero =>
      intro _
      exact ⟨(fun _ _ => 1, fun _ _ => 1), rfl, fun j ps sc _ hj => absurd hj (Nat.not_lt_zero j)⟩
  | succ n ih =>
      intro hall
      obtain ⟨st, hst, hinv⟩ := ih (fun j hj => hall j (Nat.lt_succ_of_lt hj))
      obtain ⟨res, hres⟩ := Option.isSome_iff_exists.mp (hall n (Nat.lt_succ_self n))
      have hstep : predictStep q PAD maxMtLen features mt aligns st n
          = some
            (fun p j => if j = n then
                alignScan
                  (fun x => if n = n ∧ 0 ≤ x ∧ x < (mtColLen PAD maxMtLen mt n : ℤ) then
                      ((res.1.getD x.toNat 0 : Lbl 1) : ℤ)
                    else st.2 x n)
                  (aligns n) (fun x => st.1 x n) p
              else st.1 p j,
             fun p j => if j = n ∧ 0 ≤ p ∧ p < (mtColLen PAD maxMtLen mt n : ℤ) then
                 ((res.1.getD p.toNat 0 : Lbl 1) : ℤ)
               else st.2 p j) := by
        unfold predictStep
        rw [hres]
        rfl
      refine ⟨(fun p j => if j = n then
            alignScan
              (fun x => if n = n ∧ 0 ≤ x ∧ x < (mtColLen PAD maxMtLen mt n : ℤ) then
                  ((res.1.getD x.toNat 0 : Lbl 1) : ℤ)
                else st.2 x n)
              (aligns n) (fun x => st.1 x n) p
          else st.1 p j,
          fun p j => if j = n ∧ 0 ≤ p ∧ p < (mtColLen PAD maxMtLen mt n : ℤ) then
              ((res.1.getD p.toNat 0 : Lbl 1) : ℤ)
            else st.2 p j), ?_, ?_⟩
      · rw [List.range_succ, List.foldl_append, hst]
        exact hstep
      · intro j ps sc hlab hj p hp
        rcases Nat.lt_succ_iff_lt_or_eq.mp hj with hjn | hjn
        · have hne : j ≠ n := Nat.ne_of_lt hjn
          show (if j = n ∧ 0 ≤ (p : ℤ) ∧ (p : ℤ) < (mtColLen PAD maxMtLen mt n : ℤ) then
              ((res.1.getD (p : ℤ).toNat 0 : Lbl 1) : ℤ)
            else st.2 (p : ℤ) j) = ((ps.getD p 0 : Lbl 1) : ℤ)
          rw [if_neg (fun hc => hne hc.1)]
          exact hinv j ps sc hlab hjn p hp
        · subst hjn
          have hres2 : res = (ps, sc) := by
            rw [hres] at hlab
            exact Option.some.inj hlab
          show (if j = j ∧ 0 ≤ (p : ℤ) ∧ (p : ℤ) < (mtColLen PAD maxMtLen mt j : ℤ) then
              ((res.1.getD (p : ℤ).toNat 0 : Lbl 1) : ℤ)
            else st.2 (p : ℤ) j) = ((ps.getD p 0 : Lbl 1) : ℤ)
          rw [if_pos ⟨rfl, Int.natCast_nonneg p, by exact_mod_cast hp⟩, hres2]
          simp

/-! Remaining auxiliary lemmas for the claim theorems. -/

theorem score_acc_sum (c : CRF F T) (seq : ℕ → Fin F → ℝ) (tags : ℕ → Lbl T) :
    ∀ n, c.score_acc seq tags n
      = c.transitions_from_start (tags 0) + c.emit (seq 0) (tags 0)
        + ∑ j ∈ Finset.range n,
            (c.transitions (tags (j + 1)) (tags j) + c.emit (seq (j + 1)) (tags (j + 1))) := by
  intro n
  induction n with
  | zero => simp [CRF.score_acc]
  | succ n ih =>
      simp only [CRF.score_acc]
      rw [ih, Finset.sum_range_succ]
      ring

theorem log_score_extendT (c : CRF F T) (seq : ℕ → Fin F → ℝ) {L : ℕ} (hL : 0 < L)
    (tags : ℕ → Lbl T) :
    c.log_score L seq tags = c.log_score L seq (extendT L (fun j : Fin L => tags j)) := by
  refine log_score_congr c seq L (fun j hj => ?_)
  have hjL : j < L := lt_of_le_of_lt hj (Nat.sub_lt hL one_pos)
  simp [extendT, hjL]

/-! Claim theorems. -/

/-- C1: for every non-empty emission sequence (`0 < L`), the
dynamic-programming partition function `CRF._partition` returns exactly
the log of the sum, over all `(T+1)^L` label paths, of the exponentiated
gold-path score of that path. -/
theorem spec_c1 (c : CRF F T) (seq : ℕ → Fin F → ℝ) {L : ℕ} (hL : 0 < L) :
    c.partition L seq
      = some (Real.log
          (∑ tv : Fin L → Lbl T, Real.exp (c.log_score L seq (extendT L tv)))) :=
  partition_eq_brute c seq hL

/-- Witness for C1 at a concrete all-zero CRF and `L = 1`. -/
theorem spec_c1_witness :
    0 < 1 ∧ cW.partition 1 seqW
      = some (Real.log
          (∑ tv : Fin 1 → Lbl 1, Real.exp (cW.log_score 1 seqW (extendT 1 tv)))) :=
  ⟨Nat.one_pos, spec_c1 cW seqW Nat.one_pos⟩

/-- C2: for every non-empty emission sequence, the Viterbi decoder
`CRF.label` succeeds, its path has exactly length `L`, its returned
score is the maximum gold-path score over all `(T+1)^L` label
assignments, and in particular no gold tagging scores higher. -/
theorem spec_c2 (c : CRF F T) (seq : ℕ → Fin F → ℝ) {L : ℕ} (hL : 0 < L) :
    ∃ path, c.label L seq
        = some (path,
            fmaxOn (fun tv : Fin L → Lbl T => c.log_score L seq (extendT L tv)))
      ∧ path.length = L
      ∧ ∀ tags : ℕ → Lbl T,
          c.log_score L seq tags
            ≤ fmaxOn (fun tv : Fin L → Lbl T => c.log_score L seq (extendT L tv)) := by
  obtain ⟨p, h1, h2⟩ := label_spec c seq hL
  exact ⟨p, h1, h2, fun tags => gold_le_max c seq hL tags⟩

/-- Witness for C2 at a concrete all-zero CRF and `L = 1`. -/
theorem spec_c2_witness :
    0 < 1 ∧ ∃ path, cW.label 1 seqW
        = some (path,
            fmaxOn (fun tv : Fin 1 → Lbl 1 => cW.log_score 1 seqW (extendT 1 tv)))
      ∧ path.length = 1
      ∧ ∀ tags : ℕ → Lbl 1,
          cW.log_score 1 seqW tags
            ≤ fmaxOn (fun tv : Fin 1 → Lbl 1 => cW.log_score 1 seqW (extendT 1 tv)) :=
  ⟨Nat.one_pos, spec_c2 cW seqW Nat.one_pos⟩

/-- C3: the gold-path scorer `CRF._log_score` returns the start
transition of the first tag, plus the first emission, plus one pairwise
transition (destination label first) and one emission per later
position, plus the end transition of the last tag. -/
theorem spec_c3 (c : CRF F T) (seq : ℕ → Fin F → ℝ) (tags : ℕ → Lbl T)
    {L : ℕ} (hL : 0 < L) :
    c.log_score L seq tags
      = c.transitions_from_start (tags 0) + c.emit (seq 0) (tags 0)
        + ∑ i ∈ Finset.range (L - 1),
            (c.transitions (tags (i + 1)) (tags i) + c.emit (seq (i + 1)) (tags (i + 1)))
        + c.transitions_to_end (tags (L - 1)) := by
  unfold CRF.log_score
  rw [score_acc_sum]

/-- Witness for C3 at a concrete all-zero CRF and `L = 1`. -/
theorem spec_c3_witness :
    0 < 1 ∧ cW.log_score 1 seqW tagsW
      = cW.transitions_from_start (tagsW 0) + cW.emit (seqW 0) (tagsW 0)
        + ∑ i ∈ Finset.range (1 - 1),
            (cW.transitions (tagsW (i + 1)) (tagsW i)
              + cW.emit (seqW (i + 1)) (tagsW (i + 1)))
        + cW.transitions_to_end (tagsW (1 - 1)) :=
  ⟨Nat.one_pos, spec_c3 cW seqW tagsW Nat.one_pos⟩

/-- C4: for every non-empty emission sequence and tag sequence, the
log-likelihood `CRF.log_likelihood` (gold-path score minus partition)
is defined and at most zero. -/
theorem spec_c4 (c : CRF F T) (seq : ℕ → Fin F → ℝ) (tags : ℕ → Lbl T)
    {L : ℕ} (hL : 0 < L) :
    ∃ v, c.log_likelihood L seq tags = some v ∧ v ≤ 0 := by
  refine ⟨c.log_score L seq tags
    - Real.log (∑ tv : Fin L → Lbl T, Real.exp (c.log_score L seq (extendT L tv))),
    ?_, ?_⟩
  · unfold CRF.log_likelihood
    rw [partition_eq_brute c seq hL, Option.map_some']
  · have h2 : Real.exp (c.log_score L seq tags)
        ≤ ∑ tv : Fin L → Lbl T, Real.exp (c.log_score L seq (extendT L tv)) := by
      rw [log_score_extendT c seq hL tags]
      exact Finset.single_le_sum
        (f := fun tv : Fin L → Lbl T => Real.exp (c.log_score L seq (extendT L tv)))
        (fun tv _ => (Real.exp_pos _).le) (Finset.mem_univ _)
    have h1 : c.log_score L seq tags
        ≤ Real.log (∑ tv : Fin L → Lbl T, Real.exp (c.log_score L seq (extendT L tv))) := by
      calc c.log_score L seq tags
          = Real.log (Real.exp (c.log_score L seq tags)) := (Real.log_exp _).symm
        _ ≤ _ := Real.log_le_log (Real.exp_pos _) h2
    linarith

/-- Witness for C4 at a concrete all-zero CRF and `L = 1`. -/
theorem spec_c4_witness :
    0 < 1 ∧ ∃ v, cW.log_likelihood 1 seqW tagsW = some v ∧ v ≤ 0 :=
  ⟨Nat.one_pos, spec_c4 cW seqW tagsW Nat.one_pos⟩

/-- C5: the batch loss `QualityEstimator.loss` is the sum, over the
batch, of the negated per-sequence log-likelihood computed on the
sample's emissions and tags truncated to its true (non-pad) length,
divided by the batch size (an average of per-sequence totals, not a
per-token average). -/
theorem spec_c5 {F : ℕ} (q : QualityEstimator F) (PAD : ℤ) (maxMtLen batchLen : ℕ)
    (features : ℤ → ℕ → Fin F → ℝ) (mt : ℤ → ℕ → ℤ) (word_tags : ℤ → ℕ → Lbl 1)
    (h : ∀ i < batchLen, 0 < mtColLen PAD maxMtLen mt i) :
    ∃ v : ℕ → ℝ,
      (∀ i < batchLen,
        q.crf.log_likelihood (mtColLen PAD maxMtLen mt i)
          (fun p => features (p : ℤ) i) (fun p => word_tags (p : ℤ) i) = some (v i))
      ∧ q.loss PAD maxMtLen batchLen features mt word_tags
          = some ((∑ i ∈ Finset.range batchLen, -(v i)) / (batchLen : ℝ)) := by
  have hv : ∀ i < batchLen, ∃ w,
      q.crf.log_likelihood (mtColLen PAD maxMtLen mt i)
        (fun p => features (p : ℤ) i) (fun p => word_tags (p : ℤ) i) = some w := by
    intro i hi
    unfold CRF.log_likelihood
    rw [partition_eq_brute q.crf _ (h i hi), Option.map_some']
    exact ⟨_, rfl⟩
  refine ⟨fun i => (q.crf.log_likelihood (mtColLen PAD maxMtLen mt i)
    (fun p => features (p : ℤ) i) (fun p => word_tags (p : ℤ) i)).getD 0, ?_, ?_⟩
  · intro i hi
    obtain ⟨w, hw⟩ := hv i hi
    simp [hw]
  · unfold QualityEstimator.loss
    rw [loss_foldl q PAD maxMtLen features mt word_tags
          (fun i => (q.crf.log_likelihood (mtColLen PAD maxMtLen mt i)
            (fun p => features (p : ℤ) i) (fun p => word_tags (p : ℤ) i)).getD 0)
          batchLen 0
          (fun i hi => by obtain ⟨w, hw⟩ := hv i hi; simp [hw]),
        Option.map_some', zero_add]

/-- Witness for C5 on a one-element batch with a single non-pad token. -/
theorem spec_c5_witness :
    (∀ i < 1, 0 < mtColLen 0 1 mtW i)
    ∧ ∃ v : ℕ → ℝ,
      (∀ i < 1,
        qW.crf.log_likelihood (mtColLen 0 1 mtW i)
          (fun p => featW (p : ℤ) i) (fun p => wtagW (p : ℤ) i) = some (v i))
      ∧ qW.loss 0 1 1 featW mtW wtagW
          = some ((∑ i ∈ Finset.range 1, -(v i)) / ((1 : ℕ) : ℝ)) :=
  ⟨by decide, spec_c5 qW 0 1 1 featW mtW wtagW (by decide)⟩

/-- C6: the alignment scan of `QualityEstimator.predict` processes the
pairs in order and stops at the first pair whose target index is `-1`;
pairs after the sentinel never affect the result, and on the alignment
`[(0,1),(1,-1),(2,0)]` with target labels `[OK, BAD]` only `(0,1)` takes
effect: source 0 becomes BAD and source 2 keeps its initial OK. -/
theorem spec_c6 :
    (∀ (w : ℤ → ℤ) (l1 l2 : List (ℤ × ℤ)) (js : ℤ) (st : ℤ → ℤ),
        alignScan w (l1 ++ (js, -1) :: l2) st = alignScan w l1 st)
    ∧ alignScan (fun t => if t = 1 then 0 else 1) [(0, 1), (1, -1), (2, 0)]
        (fun _ => 1) 0 = 0
    ∧ alignScan (fun t => if t = 1 then 0 else 1) [(0, 1), (1, -1), (2, 0)]
        (fun _ => 1) 1 = 1
    ∧ alignScan (fun t => if t = 1 then 0 else 1) [(0, 1), (1, -1), (2, 0)]
        (fun _ => 1) 2 = 1 := by
  refine ⟨fun w l1 l2 js st => alignScan_sentinel w l1 l2 js st, ?_, ?_, ?_⟩
  all_goals norm_num [alignScan, Function.update_apply]

/-- C7: a source label computed by the alignment scan from the all-OK
initialization is BAD exactly when some pair before the `-1` sentinel
links it to a BAD target label, and a source label that is already BAD
is never reverted by later pairs. -/
theorem spec_c7 :
    (∀ (w : ℤ → ℤ) (l : List (ℤ × ℤ)) (st : ℤ → ℤ) (s : ℤ),
        st s = 0 → alignScan w l st s = 0)
    ∧ (∀ (w : ℤ → ℤ) (l : List (ℤ × ℤ)) (s : ℤ),
        alignScan w l (fun _ => 1) s = 0
          ↔ ∃ pr ∈ l.takeWhile (fun e => e.2 ≠ -1), pr.1 = s ∧ w pr.2 = 0) := by
  refine ⟨fun w l st s h => alignScan_mono w l st s h, fun w l s => ?_⟩
  rw [alignScan_zero_iff]
  simp

/-- Witness for C7: a label that is already BAD stays BAD. -/
theorem spec_c7_witness :
    alignScan (fun _ => (1 : ℤ)) [] (fun _ => (0 : ℤ)) 5 = 0 :=
  spec_c7.1 (fun _ => 1) [] (fun _ => 0) 5 rfl

/-- C8: in the word tags returned by `QualityEstimator.predict`, every
pad position carries the sentinel `-1` (distinct from BAD `0` and OK
`1`), and every position within a column's true length carries the
label decoded by the Viterbi pass for that column. -/
theorem spec_c8 {F : ℕ} (q : QualityEstimator F) (PAD : ℤ) (maxMtLen batchLen : ℕ)
    (features : ℤ → ℕ → Fin F → ℝ) (mt : ℤ → ℕ → ℤ) (aligns : ℕ → List (ℤ × ℤ))
    (hlen : ∀ j < batchLen, 0 < mtColLen PAD maxMtLen mt j)
    (hpad : ∀ j < batchLen, ∀ p : ℕ, p < mtColLen PAD maxMtLen mt j →
      mt (p : ℤ) j ≠ PAD) :
    ∃ srcT wordT,
      q.predict PAD maxMtLen batchLen features mt aligns = some (srcT, wordT)
      ∧ (∀ (p : ℤ) (j : ℕ), mt p j = PAD → wordT p j = -1)
      ∧ ((-1 : ℤ) ≠ 0 ∧ (-1 : ℤ) ≠ 1)
      ∧ (∀ j < batchLen, ∀ p : ℕ, p < mtColLen PAD maxMtLen mt j →
          ∃ path sc,
            q.crf.label (mtColLen PAD maxMtLen mt j)
                (fun x : ℕ => features (x : ℤ) j) = some (path, sc)
            ∧ wordT (p : ℤ) j = ((path.getD p 0 : Lbl 1) : ℤ)) := by
  have hsome : ∀ j < batchLen,
      (q.crf.label (mtColLen PAD maxMtLen mt j) (fun p => features (p : ℤ) j)).isSome := by
    intro j hj
    obtain ⟨path, hp, _⟩ := label_spec q.crf (fun p => features (p : ℤ) j) (hlen j hj)
    rw [hp]
    rfl
  obtain ⟨st, hfold, hinv⟩ := predict_foldl q PAD maxMtLen features mt aligns batchLen hsome
  refine ⟨st.1, fun p j => if mt p j = PAD then -1 else st.2 p j, ?_, ?_, by norm_num, ?_⟩
  · unfold QualityEstimator.predict
    rw [hfold, Option.map_some']
  · intro p j hpj
    show (if mt p j = PAD then -1 else st.2 p j) = -1
    rw [if_pos hpj]
  · intro j hj p hp
    obtain ⟨path, hplab, _⟩ := label_spec q.crf (fun x : ℕ => features (x : ℤ) j) (hlen j hj)
    refine ⟨path, _, hplab, ?_⟩
    show (if mt (p : ℤ) j = PAD then -1 else st.2 (p : ℤ) j) = ((path.getD p 0 : Lbl 1) : ℤ)
    rw [if_neg (hpad j hj p hp)]
    exact hinv j path _ hplab hj p hp

/-- Witness for C8 on a one-column batch with a single non-pad token. -/
theorem spec_c8_witness :
    (∀ j < 1, 0 < mtColLen 0 1 mtW j)
    ∧ (∀ j < 1, ∀ p : ℕ, p < mtColLen 0 1 mtW j → mtW (p : ℤ) j ≠ 0)
    ∧ ∃ srcT wordT,
      qW.predict 0 1 1 featW mtW alignsW = some (srcT, wordT)
      ∧ (∀ (p : ℤ) (j : ℕ), mtW p j = 0 → wordT p j = -1)
      ∧ ((-1 : ℤ) ≠ 0 ∧ (-1 : ℤ) ≠ 1)
      ∧ (∀ j < 1, ∀ p : ℕ, p < mtColLen 0 1 mtW j →
          ∃ path sc,
            qW.crf.label (mtColLen 0 1 mtW j) (fun x : ℕ => featW (x : ℤ) j)
              = some (path, sc)
            ∧ wordT (p : ℤ) j = ((path.getD p 0 : Lbl 1) : ℤ)) :=
  ⟨by decide, by decide, spec_c8 qW 0 1 1 featW mtW alignsW (by decide) (by decide)⟩

/-- C9: both the partition function and the Viterbi decoder reject an
empty sequence (`L = 0`) with an error (embedded as `none`) instead of
returning a value. -/
theorem spec_c9 (c : CRF F T) (seq : ℕ → Fin F → ℝ) :
    c.partition 0 seq = none ∧ c.label 0 seq = none :=
  ⟨rfl, rfl⟩

/-- C10: on a 3-dimensional (batched) input, `CRF.label` and
`CRF.log_likelihood` operate on batch element `0` only: the result
equals the call on the first sequence alone, and the other batch
elements are ignored. -/
theorem spec_c10 (c : CRF F T) (B B' L : ℕ) (s s' : ℕ → ℕ → Fin F → ℝ)
    (tags : ℕ → Lbl T) :
    c.labelTensor (.dim3 B L s) = c.label L (s 0)
    ∧ c.log_likelihoodTensor (.dim3 B L s) tags = c.log_likelihood L (s 0) tags
    ∧ (s 0 = s' 0 → c.labelTensor (.dim3 B L s) = c.labelTensor (.dim3 B' L s'))
    ∧ (s 0 = s' 0 →
        c.log_likelihoodTensor (.dim3 B L s) tags
          = c.log_likelihoodTensor (.dim3 B' L s') tags) := by
  refine ⟨rfl, rfl, fun h => ?_, fun h => ?_⟩
  · show c.label L (s 0) = c.label L (s' 0)
    rw [h]
  · show c.log_likelihood L (s 0) tags = c.log_likelihood L (s' 0) tags
    rw [h]

/-- Witness for C10 at a concrete batched tensor with different batch
sizes. -/
theorem spec_c10_witness :
    cW.labelTensor (.dim3 2 1 sW3) = cW.labelTensor (.dim3 3 1 sW3)
    ∧ cW.log_likelihoodTensor (.dim3 2 1 sW3) tagsW
        = cW.log_likelihoodTensor (.dim3 3 1 sW3) tagsW :=
  ⟨(spec_c10 cW 2 3 1 sW3 sW3 tagsW).2.2.1 rfl,
   (spec_c10 cW 2 3 1 sW3 sW3 tagsW).2.2.2 rfl⟩

end

end QE
